import Mathlib

/-!
# Verification of the arTIco CSV accessor and example CNN pipeline

Shallow embedding of `src/utils/_Csv.py` and `src/build/ExampleCnnMixedPipe.py`.

Paths are modelled after `pathlib.PurePosixPath`: only the final component
(the `name`) takes part in suffix handling, so a path is a directory prefix
(carried around unchanged, separator included) together with a name that
contains no separator.  Python strings become `List Char`, machine floats
become exact rationals (`ℚ`), fallible operations return `Option`/`Except`.
-/

/-- A path, split as `pathlib` splits it: an (opaque) directory prefix and the
final component `name`.  `pathlib.PurePath.suffix`/`with_suffix` read and
rewrite only `name`. -/
structure PyPath where
  dir : List Char
  name : List Char
deriving DecidableEq

/-- Helper for `pySuffix`: scan the reversed name for the first `'.'`
(the last `'.'` of the name), accumulating the characters already passed
(these are the characters standing after that dot, in original order).
Mirrors `PurePath.suffix`: the result is empty when there is no dot, when the
dot is the first character of the name (`i = 0`), or when the dot is the last
character (`i = len(name) - 1`). -/
def suffixAux : List Char → List Char → List Char
  | [], _ => []
  | c :: rest, acc =>
    if c = '.' then (if rest = [] ∨ acc = [] then [] else '.' :: acc)
    else suffixAux rest (c :: acc)

/-- `pathlib.PurePath.suffix` of a final component: `name[i:]` for `i` the
index of the last `'.'`, provided `0 < i < len(name) - 1`, else `""`. -/
def pySuffix (name : List Char) : List Char :=
  suffixAux name.reverse []

/-- `pathlib.PurePath.with_suffix`: rejects a suffix containing the separator,
a suffix that is nonempty but does not start with `'.'` or equals `"."`, and
a path with an empty name; otherwise the old suffix (if any) is cut off and
the new one is appended. -/
def withSuffix (p : PyPath) (suffix : List Char) : Option PyPath :=
  if '/' ∈ suffix then none
  else if (suffix ≠ [] ∧ suffix.head? ≠ some '.') ∨ suffix = ['.'] then none
  else if p.name = [] then none
  else
    let old := pySuffix p.name
    some ⟨p.dir,
      (if old = [] then p.name
       else p.name.take (p.name.length - old.length)) ++ suffix⟩

/-- The `while csv_path.suffix in {csv_suffix, compr_suffix}` loop of
`Csv.__init__`, with an explicit fuel argument (the initial name length
bounds the number of iterations, as every iteration shortens the name).
Each iteration is `csv_path = csv_path.with_suffix("")`, which for a
nonempty current suffix removes exactly that suffix.  If the current suffix
were empty and matched (possible only for an empty `csv_suffix` or
`compr_suffix`, never for the `".csv"`/`".zip"` literals of the source),
`with_suffix("")` would not change the name and Python would loop forever;
that branch returns the name unchanged. -/
def stripSuffixesF (csvSuffix comprSuffix : List Char) : Nat → List Char → List Char
  | 0, name => name
  | fuel + 1, name =>
    let s := pySuffix name
    if s = csvSuffix ∨ s = comprSuffix then
      if s = [] then name
      else stripSuffixesF csvSuffix comprSuffix fuel (name.take (name.length - s.length))
    else name

/-- The suffix-stripping loop of `Csv.__init__`. -/
def stripSuffixes (csvSuffix comprSuffix name : List Char) : List Char :=
  stripSuffixesF csvSuffix comprSuffix name.length name

/-- `Csv.__init__` (`src/utils/_Csv.py`, lines 44-52): force compression when
the current suffix equals the compression suffix, strip `csv_suffix` and
`compr_suffix` suffixes iteratively, then set the canonical suffix
(`csv_suffix + compr_suffix` when compressing, `csv_suffix` otherwise) via
`with_suffix`.  Returns the computed `self.csv_path`; `none` models a
`ValueError` escaping from `with_suffix`. -/
def csvInit (p : PyPath) (compress : Bool) (csvSuffix comprSuffix : List Char) :
    Option PyPath :=
  let compress := if pySuffix p.name = comprSuffix then true else compress
  let stripped : PyPath := ⟨p.dir, stripSuffixes csvSuffix comprSuffix p.name⟩
  if compress then withSuffix stripped (csvSuffix ++ comprSuffix)
  else withSuffix stripped csvSuffix

/-- The default `csv_suffix = ".csv"`. -/
def csvS : List Char := ".csv".toList

/-- The default `compr_suffix = ".zip"`. -/
def zipS : List Char := ".zip".toList

/-- `Csv.__init__` with the default suffix arguments. -/
def csvInitD (p : PyPath) (compress : Bool) : Option PyPath :=
  csvInit p compress csvS zipS

/-! ## Basic facts about `pySuffix` and the stripping loop -/

lemma suffixAux_cons_ne {c : Char} (h : c ≠ '.') (rest acc : List Char) :
    suffixAux (c :: rest) acc = suffixAux rest (c :: acc) := by
  simp [suffixAux, h]

lemma suffixAux_cons_dot (rest acc : List Char) :
    suffixAux ('.' :: rest) acc = if rest = [] ∨ acc = [] then [] else '.' :: acc := by
  simp [suffixAux]

lemma pySuffix_nil : pySuffix [] = [] := rfl

lemma suffixAux_decomp :
    ∀ (rev acc : List Char), suffixAux rev acc ≠ [] →
      ∃ r₁ r₂, rev = r₁ ++ '.' :: r₂ ∧ r₂ ≠ [] ∧
        suffixAux rev acc = '.' :: (r₁.reverse ++ acc) := by
  intro rev
  induction rev with
  | nil => intro acc h; simp [suffixAux] at h
  | cons c rest ih =>
    intro acc h
    by_cases hc : c = '.'
    · subst hc
      rw [suffixAux_cons_dot] at h ⊢
      by_cases hr : rest = [] ∨ acc = []
      · simp [hr] at h
      · refine ⟨[], rest, by simp, ?_, by simp [hr]⟩
        intro hrest
        exact hr (Or.inl hrest)
    · rw [suffixAux_cons_ne hc] at h ⊢
      obtain ⟨r₁, r₂, hrev, hr₂, hs⟩ := ih (c :: acc) h
      exact ⟨c :: r₁, r₂, by simp [hrev], hr₂, by simp [hs]⟩

/-- A nonempty `pySuffix` really is a suffix of the name, with a nonempty
remainder in front of it. -/
lemma pySuffix_decomp {name : List Char} (h : pySuffix name ≠ []) :
    ∃ pre, pre ≠ [] ∧ name = pre ++ pySuffix name := by
  obtain ⟨r₁, r₂, hrev, hr₂, hs⟩ := suffixAux_decomp name.reverse [] h
  refine ⟨r₂.reverse, by simpa using hr₂, ?_⟩
  have hsuf : pySuffix name = '.' :: r₁.reverse := by simpa [pySuffix] using hs
  rw [hsuf]
  calc name = (name.reverse).reverse := by simp
    _ = (r₁ ++ '.' :: r₂).reverse := by rw [hrev]
    _ = r₂.reverse ++ '.' :: r₁.reverse := by
        rw [List.reverse_append, List.reverse_cons, List.append_assoc]
        simp

lemma pySuffix_length_eq {name : List Char} {pre : List Char}
    (hname : name = pre ++ pySuffix name) :
    name.length = pre.length + (pySuffix name).length := by
  conv_lhs => rw [hname]
  rw [List.length_append]

lemma pySuffix_length_lt {name : List Char} (h : pySuffix name ≠ []) :
    (pySuffix name).length < name.length := by
  obtain ⟨pre, hpre, hname⟩ := pySuffix_decomp h
  have hlen := pySuffix_length_eq hname
  have hp : 0 < pre.length := List.length_pos.mpr hpre
  omega

/-- For a name `pre ++ suffix`, cutting the suffix length off the end
recovers `pre`. -/
lemma take_sub_suffix {name pre : List Char} (hname : name = pre ++ pySuffix name) :
    name.take (name.length - (pySuffix name).length) = pre := by
  have hlen := pySuffix_length_eq hname
  have harg : name.length - (pySuffix name).length = pre.length := by omega
  rw [harg]
  conv_lhs => rw [hname]
  exact List.take_left _ _

/-- Consuming characters different from `'.'` only moves them to the
accumulator. -/
lemma suffixAux_no_dot (u : List Char) (hu : '.' ∉ u) :
    ∀ rest acc, suffixAux (u ++ rest) acc = suffixAux rest (u.reverse ++ acc) := by
  induction u with
  | nil => intro rest acc; simp
  | cons c u ih =>
    intro rest acc
    have hc : c ≠ '.' := fun e => hu (e ▸ List.mem_cons_self c u)
    have hu' : '.' ∉ u := fun m => hu (List.mem_cons_of_mem c m)
    rw [List.cons_append, suffixAux_cons_ne hc, ih hu', List.reverse_cons,
      List.append_assoc]
    simp

/-- The suffix of `xs ++ "." ++ w` for a nonempty dot-free word `w`: it is
`"." ++ w` unless the dot would land on position `0` (i.e. `xs = []`). -/
lemma pySuffix_append {xs w : List Char} (hw : w ≠ []) (hdot : '.' ∉ w) :
    pySuffix (xs ++ '.' :: w) = if xs = [] then [] else '.' :: w := by
  have hrev : (xs ++ '.' :: w).reverse = w.reverse ++ ('.' :: xs.reverse) := by
    rw [List.reverse_append, List.reverse_cons, List.append_assoc]
    simp
  have hdotrev : '.' ∉ w.reverse := by simpa using hdot
  rw [pySuffix, hrev, suffixAux_no_dot w.reverse hdotrev, suffixAux_cons_dot]
  simp only [List.reverse_reverse, List.append_nil, List.reverse_eq_nil_iff]
  by_cases hx : xs = [] <;> simp [hx, hw]

lemma csvS_eq : csvS = '.' :: ['c', 's', 'v'] := rfl

lemma zipS_eq : zipS = '.' :: ['z', 'i', 'p'] := rfl

lemma pySuffix_append_csv {xs : List Char} (hxs : xs ≠ []) :
    pySuffix (xs ++ csvS) = csvS := by
  rw [csvS_eq, pySuffix_append (by decide) (by decide)]
  simp [hxs]

lemma pySuffix_append_zip {xs : List Char} (hxs : xs ≠ []) :
    pySuffix (xs ++ zipS) = zipS := by
  rw [zipS_eq, pySuffix_append (by decide) (by decide)]
  simp [hxs]

/-- The fuel given to `stripSuffixesF` is irrelevant as long as it bounds the
current name length. -/
lemma stripSuffixesF_fuel (cs zs : List Char) :
    ∀ f₁ f₂ name, name.length ≤ f₁ → name.length ≤ f₂ →
      stripSuffixesF cs zs f₁ name = stripSuffixesF cs zs f₂ name := by
  intro f₁
  induction f₁ with
  | zero =>
    intro f₂ name h₁ _
    have : name = [] := List.length_eq_zero.mp (Nat.le_zero.mp h₁)
    subst this
    cases f₂ with
    | zero => rfl
    | succ g => simp [stripSuffixesF, pySuffix_nil]
  | succ g₁ ih =>
    intro f₂ name h₁ h₂
    cases f₂ with
    | zero =>
      have : name = [] := List.length_eq_zero.mp (Nat.le_zero.mp h₂)
      subst this
      simp [stripSuffixesF, pySuffix_nil]
    | succ g₂ =>
      simp only [stripSuffixesF]
      by_cases hcond : pySuffix name = cs ∨ pySuffix name = zs
      · simp only [hcond, if_true]
        by_cases hnil : pySuffix name = []
        · simp [hnil]
        · simp only [hnil, if_false]
          have hlt := pySuffix_length_lt hnil
          have hpos : 0 < (pySuffix name).length := List.length_pos.mpr hnil
          have hlen : (name.take (name.length - (pySuffix name).length)).length ≤ g₁ := by
            rw [List.length_take]; omega
          have hlen' : (name.take (name.length - (pySuffix name).length)).length ≤ g₂ := by
            rw [List.length_take]; omega
          exact ih g₂ _ hlen hlen'
      · simp [hcond]

/-- One-step unfolding of the stripping loop. -/
lemma stripSuffixes_eq (cs zs name : List Char) :
    stripSuffixes cs zs name =
      if pySuffix name = cs ∨ pySuffix name = zs then
        (if pySuffix name = [] then name
         else stripSuffixes cs zs (name.take (name.length - (pySuffix name).length)))
      else name := by
  cases hn : name.length with
  | zero =>
    have hnil : name = [] := List.length_eq_zero.mp hn
    subst hnil
    simp [stripSuffixes, stripSuffixesF, pySuffix_nil]
  | succ k =>
    have h1 : stripSuffixes cs zs name = stripSuffixesF cs zs (k + 1) name := by
      rw [stripSuffixes, hn]
    rw [h1]
    simp only [stripSuffixesF]
    by_cases hcond : pySuffix name = cs ∨ pySuffix name = zs
    · simp only [hcond, if_true]
      by_cases hnil : pySuffix name = []
      · simp [hnil]
      · simp only [hnil, if_false]
        have hlt := pySuffix_length_lt hnil
        have hpos : 0 < (pySuffix name).length := List.length_pos.mpr hnil
        unfold stripSuffixes
        rw [hn]
        apply stripSuffixesF_fuel
        · rw [List.length_take]; omega
        · exact le_refl _
    · simp [hcond]

/-- Stripping never empties a nonempty name (each removed suffix leaves the
nonempty part standing in front of the dot). -/
lemma stripSuffixes_ne_nil (cs zs : List Char) (name : List Char) (h : name ≠ []) :
    stripSuffixes cs zs name ≠ [] := by
  generalize hk : name.length = k
  induction k using Nat.strong_induction_on generalizing name with
  | _ k ih =>
    rw [stripSuffixes_eq]
    by_cases hcond : pySuffix name = cs ∨ pySuffix name = zs
    · simp only [hcond, if_true]
      by_cases hnil : pySuffix name = []
      · simpa [hnil] using h
      · simp only [hnil, if_false]
        obtain ⟨pre, hpre, hname⟩ := pySuffix_decomp hnil
        rw [take_sub_suffix hname]
        have hlt : pre.length < k := by
          have hlen := pySuffix_length_eq hname
          have : 0 < (pySuffix name).length := List.length_pos.mpr hnil
          omega
        exact ih pre.length hlt pre hpre rfl
    · simpa [hcond] using h

/-- After the loop, the remaining suffix matches neither stripped suffix
(for the default, nonempty suffix constants). -/
lemma pySuffix_stripSuffixes (name : List Char) :
    pySuffix (stripSuffixes csvS zipS name) ≠ csvS ∧
    pySuffix (stripSuffixes csvS zipS name) ≠ zipS := by
  generalize hk : name.length = k
  induction k using Nat.strong_induction_on generalizing name with
  | _ k ih =>
    rw [stripSuffixes_eq]
    by_cases hcond : pySuffix name = csvS ∨ pySuffix name = zipS
    · simp only [hcond, if_true]
      by_cases hnil : pySuffix name = []
      · rw [if_pos hnil]
        constructor <;> rw [hnil] <;> decide
      · simp only [hnil, if_false]
        obtain ⟨pre, hpre, hname⟩ := pySuffix_decomp hnil
        rw [take_sub_suffix hname]
        have hlt : pre.length < k := by
          have hlen := pySuffix_length_eq hname
          have : 0 < (pySuffix name).length := List.length_pos.mpr hnil
          omega
        exact ih pre.length hlt pre rfl
    · simp only [hcond, if_false]
      exact ⟨fun e => hcond (Or.inl e), fun e => hcond (Or.inr e)⟩

/-- A name whose suffix matches neither constant is a fixpoint of the loop. -/
lemma stripSuffixes_fix {name : List Char} (h1 : pySuffix name ≠ csvS)
    (h2 : pySuffix name ≠ zipS) : stripSuffixes csvS zipS name = name := by
  rw [stripSuffixes_eq]
  simp [h1, h2]

lemma stripSuffixes_append_csv {xs : List Char} (hxs : xs ≠ []) :
    stripSuffixes csvS zipS (xs ++ csvS) = stripSuffixes csvS zipS xs := by
  rw [stripSuffixes_eq, pySuffix_append_csv hxs,
    if_pos (Or.inl rfl), if_neg (by decide : ¬(csvS = []))]
  have hlen : (xs ++ csvS).length - csvS.length = xs.length := by
    rw [List.length_append]; omega
  rw [hlen, List.take_left]

lemma stripSuffixes_append_zip {xs : List Char} (hxs : xs ≠ []) :
    stripSuffixes csvS zipS (xs ++ zipS) = stripSuffixes csvS zipS xs := by
  rw [stripSuffixes_eq, pySuffix_append_zip hxs,
    if_pos (Or.inr rfl), if_neg (by decide : ¬(zipS = []))]
  have hlen : (xs ++ zipS).length - zipS.length = xs.length := by
    rw [List.length_append]; omega
  rw [hlen, List.take_left]

/-! ## Decomposing `Csv.__init__` with the default suffixes -/

lemma withSuffix_csv (p : PyPath) :
    withSuffix p csvS =
      if p.name = [] then none
      else some ⟨p.dir,
        (if pySuffix p.name = [] then p.name
         else p.name.take (p.name.length - (pySuffix p.name).length)) ++ csvS⟩ := by
  unfold withSuffix
  rw [if_neg (by decide : ¬('/' ∈ csvS)),
    if_neg (by decide : ¬((csvS ≠ [] ∧ csvS.head? ≠ some '.') ∨ csvS = ['.']))]

lemma withSuffix_csvzip (p : PyPath) :
    withSuffix p (csvS ++ zipS) =
      if p.name = [] then none
      else some ⟨p.dir,
        (if pySuffix p.name = [] then p.name
         else p.name.take (p.name.length - (pySuffix p.name).length)) ++ (csvS ++ zipS)⟩ := by
  unfold withSuffix
  rw [if_neg (by decide : ¬('/' ∈ csvS ++ zipS)),
    if_neg (by decide :
      ¬((csvS ++ zipS ≠ [] ∧ (csvS ++ zipS).head? ≠ some '.') ∨ csvS ++ zipS = ['.']))]

/-- Full behaviour of `Csv.__init__` for the default suffixes: the effective
compression flag, the stripped base, failure exactly on an empty base, and
the final name obtained by cutting any residual suffix off the base and
appending the canonical one. -/
lemma csvInitD_eq (p : PyPath) (c : Bool) :
    csvInitD p c =
      (if stripSuffixes csvS zipS p.name = [] then none
       else some ⟨p.dir,
        (if pySuffix (stripSuffixes csvS zipS p.name) = []
         then stripSuffixes csvS zipS p.name
         else (stripSuffixes csvS zipS p.name).take
           ((stripSuffixes csvS zipS p.name).length
             - (pySuffix (stripSuffixes csvS zipS p.name)).length)) ++
        (if (if pySuffix p.name = zipS then true else c) = true
         then csvS ++ zipS else csvS)⟩) := by
  unfold csvInitD csvInit
  by_cases hz : pySuffix p.name = zipS
  · simp only [hz, if_pos rfl, withSuffix_csvzip]
    by_cases hb : stripSuffixes csvS zipS p.name = [] <;> simp [hb]
  · simp only [hz, if_neg hz, if_false]
    cases c with
    | false => simp only [Bool.false_eq_true, if_false, withSuffix_csv]
    | true => simp only [if_true, withSuffix_csvzip]

/-- C2 helper: a name with a nonempty suffix is itself nonempty. -/
lemma name_ne_nil_of_pySuffix {name : List Char} (h : pySuffix name ≠ []) :
    name ≠ [] := by
  intro e
  rw [e, pySuffix_nil] at h
  exact h rfl

/-- C2: if the input path's final suffix equals the compression suffix
`".zip"`, `Csv.__init__` succeeds and the computed `csv_path` carries the
compression suffix (its name ends in `".csv.zip"`), for every value of the
explicit `compress` flag — compression is forced on. -/
theorem compression_forced_by_suffix (p : PyPath) (c : Bool)
    (h : pySuffix p.name = zipS) :
    ∃ q, csvInitD p c = some q ∧ csvS ++ zipS <:+ q.name := by
  have hname : p.name ≠ [] := name_ne_nil_of_pySuffix (by rw [h]; decide)
  have hbase := stripSuffixes_ne_nil csvS zipS p.name hname
  rw [csvInitD_eq, if_neg hbase]
  refine ⟨_, rfl, ?_⟩
  rw [h]
  simp only [if_pos rfl]
  exact ⟨_, rfl⟩

/-- Witness for C2 at the concrete path `table.zip` with `compress = False`. -/
theorem compression_forced_by_suffix_witness :
    ∃ q, csvInitD ⟨[], "table.zip".toList⟩ false = some q ∧ csvS ++ zipS <:+ q.name :=
  compression_forced_by_suffix ⟨[], "table.zip".toList⟩ false (by decide)

/-- C5: whenever construction succeeds, the resulting name ends in `".csv"`
when compression is effectively disabled, and in `".csv.zip"` when it is
effectively enabled (requested by the flag or forced by the suffix match). -/
theorem csv_path_suffix_invariant (p : PyPath) (c : Bool) (q : PyPath)
    (h : csvInitD p c = some q) :
    ((pySuffix p.name = zipS ∨ c = true) → csvS ++ zipS <:+ q.name) ∧
    ((pySuffix p.name ≠ zipS ∧ c = false) → csvS <:+ q.name) := by
  rw [csvInitD_eq] at h
  by_cases hb : stripSuffixes csvS zipS p.name = []
  · rw [if_pos hb] at h
    exact absurd h (by simp)
  · rw [if_neg hb] at h
    have hq := (Option.some_injective _ h).symm
    constructor
    · rintro (hz | hc)
      · rw [hq]
        simp only [hz, if_pos rfl]
        exact ⟨_, rfl⟩
      · subst hc
        rw [hq]
        by_cases hz : pySuffix p.name = zipS <;> simp [hz]
    · rintro ⟨hz, hc⟩
      subst hc
      rw [hq]
      simp only [hz, if_neg hz, if_false, Bool.false_eq_true]
      exact ⟨_, rfl⟩

/-- Witness for C5: an uncompressed and a (suffix-)compressed instance. -/
theorem csv_path_suffix_invariant_witness :
    csvS <:+ ("t.csv".toList) ∧ csvS ++ zipS <:+ ("t.csv.zip".toList) :=
  ⟨(csv_path_suffix_invariant ⟨[], "t".toList⟩ false ⟨[], "t.csv".toList⟩
      (by decide)).2 ⟨by decide, rfl⟩,
   (csv_path_suffix_invariant ⟨[], "t.zip".toList⟩ false ⟨[], "t.csv.zip".toList⟩
      (by decide)).1 (Or.inl (by decide))⟩

/-! ## C3/C4: the exact shape of the normalization -/

/-- Modelled from the spec's words for claim C3: strip the `".csv"`/`".zip"`
suffixes iteratively, then APPEND the canonical suffix (`".csv"`, plus
`".zip"` when compressing).  This is the claimed algorithm; the code instead
goes through `with_suffix`, which REPLACES a residual foreign suffix. -/
def specStripAppend (name : List Char) (compress : Bool) : List Char :=
  let eff := if pySuffix name = zipS then true else compress
  stripSuffixes csvS zipS name ++ (if eff then csvS ++ zipS else csvS)

/-- C3 counterexample: on input name `a.txt` with `compress = False` the code
yields `a.csv` (the residual `.txt` suffix is replaced by `with_suffix`),
while the claimed strip-then-append algorithm yields `a.txt.csv`. -/
theorem path_normalization_append_counterexample :
    csvInitD ⟨[], "a.txt".toList⟩ false = some ⟨[], "a.csv".toList⟩ ∧
    specStripAppend "a.txt".toList false = "a.txt.csv".toList ∧
    "a.csv".toList ≠ "a.txt.csv".toList := by
  refine ⟨by decide, by decide, by decide⟩

/-- The amended algorithm: strip iteratively, then let `with_suffix` replace
any residual final suffix of the stripped base (appending when none
remains). -/
def specStripReplace (name : List Char) (compress : Bool) : Option (List Char) :=
  let eff := if pySuffix name = zipS then true else compress
  let base := stripSuffixes csvS zipS name
  if base = [] then none
  else some
    ((if pySuffix base = [] then base
      else base.take (base.length - (pySuffix base).length)) ++
     (if eff then csvS ++ zipS else csvS))

/-- C3 (amended): `Csv.__init__` strips `".csv"`/`".zip"` suffixes
iteratively and then sets the canonical suffix by suffix REPLACEMENT on the
stripped base (appending only when the base has no residual suffix); the two
example scenarios of the claim hold as stated. -/
theorem path_normalization_strip_replace :
    (∀ dir name c, csvInitD ⟨dir, name⟩ c =
      (specStripReplace name c).map (fun n => ⟨dir, n⟩)) ∧
    csvInitD ⟨"data/".toList, "table.csv".toList⟩ false =
      some ⟨"data/".toList, "table.csv".toList⟩ ∧
    csvInitD ⟨"data/".toList, "table.csv".toList⟩ true =
      some ⟨"data/".toList, "table.csv.zip".toList⟩ := by
  refine ⟨?_, by decide, by decide⟩
  intro dir name c
  rw [csvInitD_eq]
  unfold specStripReplace
  by_cases hb : stripSuffixes csvS zipS name = [] <;> simp [hb]

/-- C4 counterexample: path derivation is not a fixpoint.  From `a.csv.txt`
(with `compress = False`) the code derives `a.csv.csv`; feeding that derived
path back in with the same flag derives `a.csv`, a different path. -/
theorem reinit_fixpoint_counterexample :
    csvInitD ⟨[], "a.csv.txt".toList⟩ false = some ⟨[], "a.csv.csv".toList⟩ ∧
    csvInitD ⟨[], "a.csv.csv".toList⟩ false = some ⟨[], "a.csv".toList⟩ ∧
    (PyPath.mk [] "a.csv".toList) ≠ PyPath.mk [] "a.csv.csv".toList := by
  refine ⟨by decide, by decide, by decide⟩

/-- C4 (amended): derivation is deterministic (two constructions from the
same inputs agree), and the derived path is a fixpoint of re-construction
with the same flag PROVIDED the stripped base carries no residual suffix
(e.g. `data/table` from `data/table.csv`); without that proviso the fixpoint
property fails (see the counterexample). -/
theorem path_derivation_deterministic_fixpoint :
    (∀ p c q₁ q₂, csvInitD p c = some q₁ → csvInitD p c = some q₂ → q₁ = q₂) ∧
    (∀ p c q, csvInitD p c = some q →
      pySuffix (stripSuffixes csvS zipS p.name) = [] → csvInitD q c = some q) := by
  constructor
  · intro p c q₁ q₂ h₁ h₂
    rw [h₁] at h₂
    exact Option.some_injective _ h₂
  · intro p c q h hbase
    rw [csvInitD_eq] at h
    by_cases hb : stripSuffixes csvS zipS p.name = []
    · rw [if_pos hb] at h
      exact absurd h (by simp)
    · rw [if_neg hb, if_pos hbase] at h
      have hq := (Option.some_injective _ h).symm
      set base := stripSuffixes csvS zipS p.name with hbdef
      by_cases hz : pySuffix p.name = zipS
      · -- effective compression on: the derived name is `base ++ ".csv.zip"`
        have hqname : q.name = base ++ (csvS ++ zipS) := by rw [hq]; simp [hz]
        have hcsv_ne : base ++ csvS ≠ [] := by simp [csvS]
        have hqsuf : pySuffix q.name = zipS := by
          rw [hqname, ← List.append_assoc]
          exact pySuffix_append_zip hcsv_ne
        have hstrip : stripSuffixes csvS zipS q.name = base := by
          rw [hqname, ← List.append_assoc, stripSuffixes_append_zip hcsv_ne,
            stripSuffixes_append_csv hb]
          exact stripSuffixes_fix (by rw [hbase]; decide) (by rw [hbase]; decide)
        rw [csvInitD_eq, hstrip, if_neg hb, hqsuf]
        simp only [if_pos rfl, hbase, if_true]
        rw [hq]
        simp [hz]
      · -- no forced compression: the flag `c` decides
        cases c with
        | true =>
          have hqname : q.name = base ++ (csvS ++ zipS) := by rw [hq]; simp [hz]
          have hcsv_ne : base ++ csvS ≠ [] := by simp [csvS]
          have hqsuf : pySuffix q.name = zipS := by
            rw [hqname, ← List.append_assoc]
            exact pySuffix_append_zip hcsv_ne
          have hstrip : stripSuffixes csvS zipS q.name = base := by
            rw [hqname, ← List.append_assoc, stripSuffixes_append_zip hcsv_ne,
              stripSuffixes_append_csv hb]
            exact stripSuffixes_fix (by rw [hbase]; decide) (by rw [hbase]; decide)
          rw [csvInitD_eq, hstrip, if_neg hb, hqsuf]
          simp only [if_pos rfl, hbase, if_true]
          rw [hq]
          simp [hz]
        | false =>
          have hqname : q.name = base ++ csvS := by rw [hq]; simp [hz]
          have hqsuf : pySuffix q.name = csvS := by
            rw [hqname]
            exact pySuffix_append_csv hb
          have hqsuf' : pySuffix q.name ≠ zipS := by rw [hqsuf]; decide
          have hstrip : stripSuffixes csvS zipS q.name = base := by
            rw [hqname, stripSuffixes_append_csv hb]
            exact stripSuffixes_fix (by rw [hbase]; decide) (by rw [hbase]; decide)
          rw [csvInitD_eq, hstrip, if_neg hb, if_neg hqsuf']
          simp only [hbase, if_pos rfl, Bool.false_eq_true, if_false]
          rw [hq]
          simp [hz]

/-- Witness for C4 (amended) at `data/table.csv`, `compress = False`:
the derived path is itself, hence a fixpoint. -/
theorem path_derivation_deterministic_fixpoint_witness :
    csvInitD ⟨"data/".toList, "table.csv".toList⟩ false =
      some ⟨"data/".toList, "table.csv".toList⟩ :=
  path_derivation_deterministic_fixpoint.2
    ⟨"data/".toList, "table".toList⟩ false
    ⟨"data/".toList, "table.csv".toList⟩ (by decide) (by decide)

/-! ## Model of the external CSV reader and `Csv.read`

`pandas.read_csv` / `DataFrame.to_csv` belong to an external library; the
spec scopes CSV tokenization out.  They are modelled here on text files
given as lists of lines (each a `List Char`): fields are obtained by
splitting a line at the delimiter character, the first header field names
the index (`index_col=0`), the remaining header fields name the columns,
and every data cell must parse as a (decimal) rational number — the model
restricts attention to all-numeric frames, which is what the claims about
`read`/`write` concern.  Parse failures and malformed files yield `none`
(pandas raises). -/

/-- Split a line at a delimiter character (like Python's `str.split(d)`):
always returns at least one (possibly empty) field. -/
def splitOnChar (d : Char) : List Char → List (List Char)
  | [] => [[]]
  | c :: rest =>
    match splitOnChar d rest with
    | [] => [[]]
    | s :: ss => if c = d then [] :: s :: ss else (c :: s) :: ss

/-- The row index of a data frame: an optional name and numeric values. -/
structure PIndex where
  name : Option (List Char)
  vals : List ℚ
deriving DecidableEq

/-- A parsed data frame: index (`index_col=0`), column names, and numeric
rows (one list of cells per data line, index value excluded). -/
structure Frame where
  index : PIndex
  colNames : List (List Char)
  rows : List (List ℚ)
deriving DecidableEq

/-- Decimal digit to character. -/
def dChar (d : ℕ) : Char := Char.ofNat (48 + d)

/-- Character to decimal digit value. -/
def dVal (c : Char) : ℕ := c.toNat - 48

/-- Decimal rendering of a natural number (`"0"` for zero). -/
def natToChars (n : ℕ) : List Char :=
  if n = 0 then ['0'] else ((Nat.digits 10 n).map dChar).reverse

/-- Decimal value of a digit string. -/
def charsToNat (cs : List Char) : ℕ :=
  Nat.ofDigits 10 ((cs.map dVal).reverse)

/-- Parse a nonempty all-digit string as a natural number. -/
def parseNat (cs : List Char) : Option ℕ :=
  if cs ≠ [] ∧ cs.all Char.isDigit then some (charsToNat cs) else none

/-- Parse the dot-split parts of an unsigned decimal numeral: either a bare
integer part, or an integer part and a fractional part. -/
def parseParts : List (List Char) → Option ℚ
  | [ip] => (parseNat ip).map (fun (n : ℕ) => (n : ℚ))
  | [ip, fp] =>
    if fp.all Char.isDigit then
      (parseNat ip).map
        (fun (n : ℕ) => (n : ℚ) + (charsToNat fp : ℚ) / 10 ^ fp.length)
    else none
  | _ => none

/-- Parse an unsigned decimal numeral, with an optional fractional part. -/
def parseUnsigned (cs : List Char) : Option ℚ :=
  parseParts (splitOnChar '.' cs)

/-- Parse a decimal numeral with optional leading minus sign.  This is the
fragment of the external reader's numeric inference the written files use;
anything else is a parse failure in the model. -/
def parseQ (cs : List Char) : Option ℚ :=
  match cs with
  | [] => none
  | c :: rest =>
    if c = '-' then (parseUnsigned rest).map (fun q => -q)
    else parseUnsigned (c :: rest)

/-- Parse the data cells of a row. -/
def parseCells : List (List Char) → Option (List ℚ)
  | [] => some []
  | f :: fs =>
    match parseQ f, parseCells fs with
    | some q, some qs => some (q :: qs)
    | _, _ => none

/-- Parse one data line: index value first, then the cells; the cell count
must match the header (`n`). -/
def parseRow (d : Char) (n : ℕ) (line : List Char) : Option (ℚ × List ℚ) :=
  match splitOnChar d line with
  | [] => none
  | f :: fs =>
    match parseQ f, parseCells fs with
    | some i, some cs => if cs.length = n then some (i, cs) else none
    | _, _ => none

/-- Parse all data lines. -/
def parseRows (d : Char) (n : ℕ) : List (List Char) → Option (List (ℚ × List ℚ))
  | [] => some []
  | l :: ls =>
    match parseRow d n l, parseRows d n ls with
    | some r, some rs => some (r :: rs)
    | _, _ => none

/-- Model of `pd.read_csv(file, index_col=0, sep=d)` on an all-numeric file:
header line then data lines.  An empty first header field gives a nameless
index (pandas yields `None` there). -/
def parseFile (file : List (List Char)) (d : Char) : Option Frame :=
  match file with
  | [] => none
  | header :: dataLines =>
    match splitOnChar d header with
    | [] => none
    | f0 :: cols =>
      match parseRows d cols.length dataLines with
      | none => none
      | some rows =>
        some ⟨⟨if f0 = [] then none else some f0, rows.map Prod.fst⟩,
          cols, rows.map Prod.snd⟩

/-- Column count of the 2-row preview read
(`pd.read_csv(..., index_col=0, nrows=2, sep=d).shape[1]`).  `nrows=2`
limits the data rows read, but the column count is fixed by the header
alone: number of header fields minus the consumed index column. -/
def previewCols (file : List (List Char)) (d : Char) : ℕ :=
  match file with
  | [] => 0
  | header :: _ => (splitOnChar d header).length - 1

/-- The delimiter-probing loop of `Csv.read` (lines 93-100): iterate over
the candidate list, breaking at the first delimiter whose preview shows at
least one column; the loop variable keeps the last tried delimiter when no
preview succeeds (`none` only for an empty candidate list, where Python
would leave the variable unbound). -/
def chooseDelim (file : List (List Char)) : List Char → Option Char → Option Char
  | [], last => last
  | d :: ds, _ =>
    if 0 < previewCols file d then some d else chooseDelim file ds (some d)

/-- `delimiters: List[str] = [",", "\t"]`. -/
def delimiters : List Char := [',', '\t']

/-- The delimiter `Csv.read` commits to. -/
def csvDelim (file : List (List Char)) : Option Char :=
  chooseDelim file delimiters none

/-- The full-file read of `Csv.read` with the sniffed delimiter
(lines 102-105, with the default `index_cols=0`). -/
def csvReadRaw (file : List (List Char)) : Option Frame :=
  match csvDelim file with
  | none => none
  | some d => parseFile file d

/-- Round half to even (banker's rounding), the rounding `np.round` uses,
on exact rationals. -/
def roundHalfEven (q : ℚ) : ℤ :=
  let f := ⌊q⌋
  let r := q - (f : ℚ)
  if r < 1 / 2 then f
  else if 1 / 2 < r then f + 1
  else if f % 2 = 0 then f else f + 1

/-- `np.round(x, p)` on the exact-rational model: round to `p` decimal
places (half to even). -/
def npRoundDec (p : ℤ) (q : ℚ) : ℚ :=
  (roundHalfEven (q * 10 ^ p) : ℚ) / 10 ^ p

/-- `Csv.read` (lines 74-113, defaults `dtype=None`, `index_cols=0`):
sniff the delimiter, read the whole file with it, and, when a rounding
precision is given, replace the index by its rounded values (`np.round`
returns a nameless array, so the code saves the index name first and
restores it afterwards). -/
def csvRead (file : List (List Char)) (idx_round_prec : Option ℤ) : Option Frame :=
  match csvReadRaw file with
  | none => none
  | some csv =>
    some (match idx_round_prec with
      | none => csv
      | some p =>
        let idx_name := csv.index.name
        let rounded : PIndex := ⟨none, csv.index.vals.map (npRoundDec p)⟩
        { csv with index := { rounded with name := idx_name } })

/-- C1: the delimiter probe tries `','` first and then `'\t'`, in that fixed
order, committing to the first candidate whose 2-row preview shows at least
one column; when the comma preview shows zero columns the read falls back to
`'\t'`, and even when the tab preview also shows zero columns the full read
still uses `'\t'` (the loop variable keeps the last candidate) — in
particular a file with zero columns under comma parsing is parsed with tab. -/
theorem read_delimiter_sniffing (file : List (List Char)) :
    (0 < previewCols file ',' → csvDelim file = some ',') ∧
    (previewCols file ',' = 0 →
      csvDelim file = some '\t' ∧ csvReadRaw file = parseFile file '\t') := by
  constructor
  · intro h
    simp [csvDelim, delimiters, chooseDelim, h]
  · intro h
    have h' : ¬ 0 < previewCols file ',' := by omega
    constructor
    · simp [csvDelim, delimiters, chooseDelim, h']
    · simp [csvReadRaw, csvDelim, delimiters, chooseDelim, h']

/-- Witness for C1: a comma-delimited header commits to `','`; a
tab-delimited two-row file has a zero-column comma preview and is parsed
with `'\t'`. -/
theorem read_delimiter_sniffing_witness :
    csvDelim [['a', ',', 'b']] = some ',' ∧
    (csvDelim [['a', '\t', 'b'], ['1', '\t', '2']] = some '\t' ∧
     csvReadRaw [['a', '\t', 'b'], ['1', '\t', '2']] =
       parseFile [['a', '\t', 'b'], ['1', '\t', '2']] '\t') :=
  ⟨(read_delimiter_sniffing _).1 (by decide),
   (read_delimiter_sniffing _).2 (by decide)⟩

/-- C8: `read` with `idx_round_prec = p` returns exactly the frame of the
plain read with its index values rounded to `p` decimal places
(`np.round`, half to even) and its index name untouched (the code saves the
name before the rounding and restores it after); with `idx_round_prec =
None` the index is returned as parsed. -/
theorem read_index_rounding (file : List (List Char)) (p : ℤ) :
    csvRead file (some p) =
      (csvRead file none).map (fun csv =>
        { csv with index := ⟨csv.index.name, csv.index.vals.map (npRoundDec p)⟩ }) := by
  unfold csvRead
  cases csvReadRaw file <;> simp

/-! ## Model of `Csv.write` (`DataFrame.to_csv(path, float_format="%.4f")`)

The external writer renders the header (index name first, empty when the
index is nameless) and one line per row, fields joined by `','`; every
numeric value — index values included — is rendered through the
`float_format`, modelled for the `"%.pf"` family as exact rounding to `p`
decimal places followed by fixed-point decimal rendering. -/

/-- Join fields with a delimiter (`d.join(fields)`). -/
def joinWith (d : Char) : List (List Char) → List Char
  | [] => []
  | [x] => x
  | x :: xs => x ++ d :: joinWith d xs

/-- Zero-pad a rendered natural number on the left to width `w`. -/
def padDigits (w : ℕ) (n : ℕ) : List Char :=
  List.replicate (w - (natToChars n).length) '0' ++ natToChars n

/-- `"%.pf" % q`: fixed-point rendering with `p` decimal places, the
rounding being half-to-even on the exact value. -/
def formatFixed (prec : ℕ) (q : ℚ) : List Char :=
  let z := roundHalfEven (q * 10 ^ prec)
  (if z < 0 then ['-'] else []) ++
    natToChars (z.natAbs / 10 ^ prec) ++ '.' :: padDigits prec (z.natAbs % 10 ^ prec)

/-- The rational value `"%.pf"` rendering stands for: the input rounded to
`p` decimal places. -/
def fixRound (prec : ℕ) (q : ℚ) : ℚ :=
  (roundHalfEven (q * 10 ^ prec) : ℚ) / 10 ^ prec

/-- Render the data lines: one line per (index value, row) pair. -/
def writeRows (prec : ℕ) : List ℚ → List (List ℚ) → List (List Char)
  | i :: is, r :: rs =>
    joinWith ',' (formatFixed prec i :: r.map (formatFixed prec)) ::
      writeRows prec is rs
  | _, _ => []

/-- `df.to_csv(..., float_format="%.pf")` on the model frame: header line
(index name, then column names), then the data lines. -/
def csvWriteLines (f : Frame) (prec : ℕ) : List (List Char) :=
  joinWith ','
      ((match f.index.name with | none => [] | some n => n) :: f.colNames) ::
    writeRows prec f.index.vals f.rows

/-- A constructed `Csv` accessor: it holds the canonical `csv_path`. -/
structure CsvInst where
  csv_path : PyPath

/-- `Csv.write` (lines 55-72): serialize the frame to `self.csv_path` and
return `self.csv_path`.  The result pairs the returned path with the file
content written. -/
def csvWrite (inst : CsvInst) (f : Frame) (prec : ℕ) : PyPath × List (List Char) :=
  (inst.csv_path, csvWriteLines f prec)

/-- Rounding a whole frame to `p` decimal places (the effect `"%.pf"`
serialization has on an exact-valued frame). -/
def roundFrame (prec : ℕ) (f : Frame) : Frame :=
  ⟨⟨f.index.name, f.index.vals.map (fixRound prec)⟩, f.colNames,
    f.rows.map (List.map (fixRound prec))⟩

/-- Frames the round-trip statement covers: at least one column, nonempty
comma-free column names, a nameless or nonempty comma-free index name, and
matching lengths.  (The model writer does not quote fields and the model
reader does not rename duplicate or empty headers, so such frames are out
of its scope, as are names holding the delimiter.) -/
def wellFormed (f : Frame) : Bool :=
  !f.colNames.isEmpty &&
  f.colNames.all (fun c => !c.isEmpty && !c.contains ',') &&
  (match f.index.name with
   | none => true
   | some n => !n.isEmpty && !n.contains ',') &&
  (f.index.vals.length == f.rows.length) &&
  f.rows.all (fun r => r.length == f.colNames.length)

/-! ## Digit strings -/

lemma dVal_dChar {d : ℕ} (h : d < 10) : dVal (dChar d) = d := by
  interval_cases d <;> decide

lemma dChar_digit_facts {d : ℕ} (h : d < 10) :
    (dChar d).isDigit = true ∧ dChar d ≠ '.' ∧ dChar d ≠ ',' ∧
    dChar d ≠ '-' ∧ dChar d ≠ '\t' := by
  interval_cases d <;> exact ⟨rfl, by decide, by decide, by decide, by decide⟩

lemma charsToNat_natToChars (n : ℕ) : charsToNat (natToChars n) = n := by
  by_cases h : n = 0
  · subst h; decide
  · unfold natToChars charsToNat
    rw [if_neg h]
    have h1 : ((((Nat.digits 10 n).map dChar).reverse).map dVal).reverse
        = ((Nat.digits 10 n).map dChar).map dVal := by
      rw [← List.map_reverse, List.reverse_reverse]
    rw [h1, List.map_map]
    have h2 : (Nat.digits 10 n).map (dVal ∘ dChar) = (Nat.digits 10 n).map id :=
      List.map_congr_left fun d hd =>
        dVal_dChar (Nat.digits_lt_base (by norm_num) hd)
    rw [h2, List.map_id]
    exact Nat.ofDigits_digits 10 n

lemma charsToNat_replicate_zero (k : ℕ) (cs : List Char) :
    charsToNat (List.replicate k '0' ++ cs) = charsToNat cs := by
  unfold charsToNat
  rw [List.map_append, List.reverse_append, List.map_replicate,
    List.reverse_replicate, Nat.ofDigits_append]
  have hz : Nat.ofDigits 10 (List.replicate k (dVal '0')) = 0 := by
    induction k with
    | zero => rfl
    | succ k ih => rw [List.replicate_succ, Nat.ofDigits_cons, ih]; decide
  rw [hz]
  ring

lemma natToChars_ne_nil (n : ℕ) : natToChars n ≠ [] := by
  unfold natToChars
  by_cases h : n = 0
  · simp [h]
  · simp [h, Nat.digits_ne_nil_iff_ne_zero.mpr h]

lemma mem_natToChars {c : Char} {n : ℕ} (h : c ∈ natToChars n) :
    c.isDigit = true ∧ c ≠ '.' ∧ c ≠ ',' ∧ c ≠ '-' ∧ c ≠ '\t' := by
  unfold natToChars at h
  by_cases hn : n = 0
  · rw [if_pos hn] at h
    simp at h
    subst h
    exact ⟨rfl, by decide, by decide, by decide, by decide⟩
  · rw [if_neg hn] at h
    rw [List.mem_reverse] at h
    obtain ⟨d, hd, rfl⟩ := List.mem_map.mp h
    exact dChar_digit_facts (Nat.digits_lt_base (by norm_num) hd)

lemma natToChars_all_digits (n : ℕ) : (natToChars n).all Char.isDigit = true :=
  List.all_eq_true.mpr fun c hc => (mem_natToChars hc).1

lemma natToChars_length_le {n prec : ℕ} (hp : 1 ≤ prec) (h : n < 10 ^ prec) :
    (natToChars n).length ≤ prec := by
  unfold natToChars
  by_cases hn : n = 0
  · simpa [hn] using hp
  · rw [if_neg hn, List.length_reverse, List.length_map]
    by_contra hgt
    push_neg at hgt
    have h1 : (10 : ℕ) ^ (Nat.digits 10 n).length ≤ 10 * n :=
      Nat.base_pow_length_digits_le 10 n (by norm_num) hn
    have h2 : (10 : ℕ) ^ (prec + 1) ≤ 10 ^ (Nat.digits 10 n).length :=
      Nat.pow_le_pow_right (by norm_num) hgt
    have h3 : (10 : ℕ) ^ (prec + 1) = 10 * 10 ^ prec := by ring
    omega

lemma padDigits_length {prec m : ℕ} (hp : 1 ≤ prec) (h : m < 10 ^ prec) :
    (padDigits prec m).length = prec := by
  unfold padDigits
  rw [List.length_append, List.length_replicate]
  have := natToChars_length_le hp h
  omega

lemma mem_padDigits {c : Char} {prec m : ℕ} (h : c ∈ padDigits prec m) :
    c.isDigit = true ∧ c ≠ '.' ∧ c ≠ ',' ∧ c ≠ '-' ∧ c ≠ '\t' := by
  unfold padDigits at h
  rw [List.mem_append] at h
  cases h with
  | inl h =>
    have := List.eq_of_mem_replicate h
    subst this
    exact ⟨rfl, by decide, by decide, by decide, by decide⟩
  | inr h => exact mem_natToChars h

lemma charsToNat_padDigits (prec m : ℕ) : charsToNat (padDigits prec m) = m := by
  unfold padDigits
  rw [charsToNat_replicate_zero, charsToNat_natToChars]

/-! ## Splitting and joining -/

lemma splitOnChar_ne_nil (d : Char) (cs : List Char) : splitOnChar d cs ≠ [] := by
  cases cs with
  | nil => simp [splitOnChar]
  | cons c rest =>
    unfold splitOnChar
    cases h : splitOnChar d rest with
    | nil => simp
    | cons s ss => by_cases hc : c = d <;> simp [hc]

lemma splitOnChar_no_delim {d : Char} {cs : List Char} (h : d ∉ cs) :
    splitOnChar d cs = [cs] := by
  induction cs with
  | nil => rfl
  | cons c rest ih =>
    have hc : c ≠ d := fun e => h (e ▸ List.mem_cons_self c rest)
    have hrest : d ∉ rest := fun m => h (List.mem_cons_of_mem c m)
    unfold splitOnChar
    rw [ih hrest]
    simp [hc]

lemma splitOnChar_cons (d c : Char) (rest : List Char) :
    splitOnChar d (c :: rest) =
      match splitOnChar d rest with
      | [] => [[]]
      | s :: ss => if c = d then [] :: s :: ss else (c :: s) :: ss := rfl

lemma splitOnChar_append {d : Char} {a : List Char} (b : List Char) (h : d ∉ a) :
    splitOnChar d (a ++ d :: b) = a :: splitOnChar d b := by
  induction a with
  | nil =>
    simp only [List.nil_append]
    rw [splitOnChar_cons]
    cases hs : splitOnChar d b with
    | nil => exact absurd hs (splitOnChar_ne_nil d b)
    | cons s ss => simp
  | cons c a ih =>
    have hc : c ≠ d := fun e => h (e ▸ List.mem_cons_self c a)
    have ha : d ∉ a := fun m => h (List.mem_cons_of_mem c m)
    rw [List.cons_append, splitOnChar_cons, ih ha]
    simp [hc]

lemma joinWith_single (d : Char) (x : List Char) : joinWith d [x] = x := rfl

lemma joinWith_cons₂ (d : Char) (x y : List Char) (ys : List (List Char)) :
    joinWith d (x :: y :: ys) = x ++ d :: joinWith d (y :: ys) := rfl

lemma splitOnChar_joinWith {d : Char} :
    ∀ {xs : List (List Char)}, xs ≠ [] → (∀ x ∈ xs, d ∉ x) →
      splitOnChar d (joinWith d xs) = xs := by
  intro xs
  induction xs with
  | nil => intro h; exact absurd rfl h
  | cons x xs ih =>
    intro _ hclean
    cases xs with
    | nil =>
      rw [joinWith_single]
      exact splitOnChar_no_delim (hclean x (List.mem_cons_self x []))
    | cons y ys =>
      rw [joinWith_cons₂]
      rw [splitOnChar_append _ (hclean x (List.mem_cons_self x _))]
      rw [ih (List.cons_ne_nil y ys) (fun z hz => hclean z (List.mem_cons_of_mem x hz))]

/-! ## Parsing back a formatted number -/

lemma mem_formatFixed {c : Char} {prec : ℕ} {q : ℚ} (h : c ∈ formatFixed prec q) :
    c ≠ ',' ∧ c ≠ '\t' := by
  unfold formatFixed at h
  simp only [List.mem_append, List.mem_cons] at h
  rcases h with (h | h) | h | h
  · by_cases hz : roundHalfEven (q * 10 ^ prec) < 0 <;> simp [hz] at h
    · subst h; exact ⟨by decide, by decide⟩
  · exact ⟨(mem_natToChars h).2.2.1, (mem_natToChars h).2.2.2.2⟩
  · subst h; exact ⟨by decide, by decide⟩
  · exact ⟨(mem_padDigits h).2.2.1, (mem_padDigits h).2.2.2.2⟩

lemma parseNat_of_digits {cs : List Char} (hne : cs ≠ [])
    (hdig : cs.all Char.isDigit = true) : parseNat cs = some (charsToNat cs) := by
  unfold parseNat
  rw [if_pos ⟨hne, hdig⟩]

lemma parseParts_two (ip fp : List Char) :
    parseParts [ip, fp] =
      if fp.all Char.isDigit then
        (parseNat ip).map
          (fun (n : ℕ) => (n : ℚ) + (charsToNat fp : ℚ) / 10 ^ fp.length)
      else none := rfl

lemma parseQ_cons (c : Char) (rest : List Char) :
    parseQ (c :: rest) =
      if c = '-' then (parseUnsigned rest).map (fun q => -q)
      else parseUnsigned (c :: rest) := rfl

/-- Parsing the unsigned body `intpart.fracpart` produced by `formatFixed`
recovers `m / 10 ^ prec` exactly. -/
lemma parseUnsigned_body {prec : ℕ} (hp : 1 ≤ prec) (m : ℕ) :
    parseUnsigned (natToChars (m / 10 ^ prec) ++ '.' :: padDigits prec (m % 10 ^ prec))
      = some ((m : ℚ) / 10 ^ prec) := by
  have hmod : m % 10 ^ prec < 10 ^ prec := Nat.mod_lt _ (Nat.pos_pow_of_pos prec (by norm_num))
  have hnodot_ip : '.' ∉ natToChars (m / 10 ^ prec) :=
    fun hm => (mem_natToChars hm).2.1 rfl
  have hnodot_fp : '.' ∉ padDigits prec (m % 10 ^ prec) :=
    fun hm => (mem_padDigits hm).2.1 rfl
  unfold parseUnsigned
  rw [splitOnChar_append _ hnodot_ip, splitOnChar_no_delim hnodot_fp]
  have hfp_dig : (padDigits prec (m % 10 ^ prec)).all Char.isDigit = true :=
    List.all_eq_true.mpr fun c hc => (mem_padDigits hc).1
  rw [parseParts_two, if_pos hfp_dig,
    parseNat_of_digits (natToChars_ne_nil _) (natToChars_all_digits _)]
  simp only [Option.map_some']
  congr 1
  rw [charsToNat_natToChars, charsToNat_padDigits,
    padDigits_length hp hmod]
  have h10 : ((10 : ℚ) ^ prec) ≠ 0 := by positivity
  have hnat : (10 : ℕ) ^ prec * (m / 10 ^ prec) + m % 10 ^ prec = m :=
    Nat.div_add_mod m (10 ^ prec)
  have hcast : ((10 : ℚ) ^ prec) * ((m / 10 ^ prec : ℕ) : ℚ)
      + ((m % 10 ^ prec : ℕ) : ℚ) = (m : ℚ) := by
    exact_mod_cast congrArg (Nat.cast : ℕ → ℚ) hnat
  field_simp
  linarith

/-- Round trip of one number: parsing its `"%.pf"` rendering yields the
value rounded to `p` decimal places. -/
lemma parseQ_formatFixed {prec : ℕ} (hp : 1 ≤ prec) (q : ℚ) :
    parseQ (formatFixed prec q) = some (fixRound prec q) := by
  simp only [formatFixed, fixRound]
  by_cases hz : roundHalfEven (q * 10 ^ prec) < 0
  · rw [if_pos hz, List.singleton_append, List.cons_append, parseQ_cons,
      if_pos rfl, parseUnsigned_body hp]
    simp only [Option.map_some']
    congr 1
    have habs : ((roundHalfEven (q * 10 ^ prec)).natAbs : ℚ)
        = -((roundHalfEven (q * 10 ^ prec) : ℤ) : ℚ) := by
      rw [Int.cast_natAbs, abs_of_neg hz]
      push_cast
      ring
    rw [habs]
    ring
  · rw [if_neg hz, List.nil_append]
    push_neg at hz
    cases hcs : natToChars ((roundHalfEven (q * 10 ^ prec)).natAbs / 10 ^ prec) with
    | nil => exact absurd hcs (natToChars_ne_nil _)
    | cons c0 cs0 =>
      have hc0 : c0 ∈ natToChars ((roundHalfEven (q * 10 ^ prec)).natAbs / 10 ^ prec) := by
        rw [hcs]; exact List.mem_cons_self _ _
      have hc0m : c0 ≠ '-' := (mem_natToChars hc0).2.2.2.1
      rw [List.cons_append, parseQ_cons, if_neg hc0m, ← List.cons_append,
        ← hcs, parseUnsigned_body hp]
      congr 1
      have habs : ((roundHalfEven (q * 10 ^ prec)).natAbs : ℚ)
          = ((roundHalfEven (q * 10 ^ prec) : ℤ) : ℚ) := by
        rw [Int.cast_natAbs, abs_of_nonneg hz]
      rw [habs]

/-! ## Round trip: `write` then `read` -/

lemma parseCells_cons (f : List Char) (fs : List (List Char)) :
    parseCells (f :: fs) =
      match parseQ f, parseCells fs with
      | some q, some qs => some (q :: qs)
      | _, _ => none := rfl

lemma parseRows_cons (d : Char) (n : ℕ) (l : List Char) (ls : List (List Char)) :
    parseRows d n (l :: ls) =
      match parseRow d n l, parseRows d n ls with
      | some r, some rs => some (r :: rs)
      | _, _ => none := rfl

lemma writeRows_cons (prec : ℕ) (i : ℚ) (is : List ℚ) (r : List ℚ)
    (rs : List (List ℚ)) :
    writeRows prec (i :: is) (r :: rs) =
      joinWith ',' (formatFixed prec i :: r.map (formatFixed prec)) ::
        writeRows prec is rs := rfl

lemma parseRow_fields {d : Char} {n : ℕ} {line f : List Char}
    {fs : List (List Char)} (h : splitOnChar d line = f :: fs) :
    parseRow d n line =
      match parseQ f, parseCells fs with
      | some i, some cs => if cs.length = n then some (i, cs) else none
      | _, _ => none := by
  unfold parseRow
  rw [h]

lemma parseFile_header (d : Char) (header : List Char)
    (dataLines : List (List Char)) :
    parseFile (header :: dataLines) d =
      match splitOnChar d header with
      | [] => none
      | f0 :: cols =>
        match parseRows d cols.length dataLines with
        | none => none
        | some rows =>
          some ⟨⟨if f0 = [] then none else some f0, rows.map Prod.fst⟩,
            cols, rows.map Prod.snd⟩ := rfl

lemma parseFile_cons {d : Char} {header f0 : List Char}
    {dataLines : List (List Char)} {cols : List (List Char)}
    (h : splitOnChar d header = f0 :: cols) :
    parseFile (header :: dataLines) d =
      match parseRows d cols.length dataLines with
      | none => none
      | some rows =>
        some ⟨⟨if f0 = [] then none else some f0, rows.map Prod.fst⟩,
          cols, rows.map Prod.snd⟩ := by
  rw [parseFile_header, h]

lemma formatFixed_no_comma {prec : ℕ} {q : ℚ} : ',' ∉ formatFixed prec q :=
  fun h => (mem_formatFixed h).1 rfl

lemma parseCells_format {prec : ℕ} (hp : 1 ≤ prec) (r : List ℚ) :
    parseCells (r.map (formatFixed prec)) = some (r.map (fixRound prec)) := by
  induction r with
  | nil => rfl
  | cons x r ih =>
    rw [List.map_cons, parseCells_cons, parseQ_formatFixed hp, ih, List.map_cons]

lemma parseRow_write {prec : ℕ} (hp : 1 ≤ prec) {n : ℕ} {i : ℚ} {r : List ℚ}
    (hlen : r.length = n) :
    parseRow ',' n (joinWith ',' (formatFixed prec i :: r.map (formatFixed prec)))
      = some (fixRound prec i, r.map (fixRound prec)) := by
  have hclean : ∀ x ∈ (formatFixed prec i :: r.map (formatFixed prec)), ',' ∉ x := by
    intro x hx
    rcases List.mem_cons.mp hx with rfl | hx'
    · exact formatFixed_no_comma
    · obtain ⟨y, _, rfl⟩ := List.mem_map.mp hx'
      exact formatFixed_no_comma
  have hsplit := splitOnChar_joinWith (List.cons_ne_nil _ _) hclean
  rw [parseRow_fields hsplit, parseQ_formatFixed hp, parseCells_format hp]
  simp [List.length_map, hlen]

lemma parseRows_write {prec : ℕ} (hp : 1 ≤ prec) (n : ℕ) :
    ∀ (is : List ℚ) (rs : List (List ℚ)), is.length = rs.length →
      (∀ r ∈ rs, r.length = n) →
      parseRows ',' n (writeRows prec is rs)
        = some ((is.map (fixRound prec)).zip (rs.map (List.map (fixRound prec)))) := by
  intro is
  induction is with
  | nil =>
    intro rs hlen _
    cases rs with
    | nil => rfl
    | cons r rs => simp at hlen
  | cons i is ih =>
    intro rs hlen hr
    cases rs with
    | nil => simp at hlen
    | cons r rs =>
      rw [writeRows_cons, parseRows_cons,
        parseRow_write hp (hr r (List.mem_cons_self r rs)),
        ih rs (by simpa using hlen) (fun x hx => hr x (List.mem_cons_of_mem r hx))]
      simp

/-- C9: on the model of the external serializer/parser, `write(df)` followed
by `read()` on the same accessor returns the frame with every numeric value
(index included) rounded as the `"%.pf"` float format implies (`p = 4` for
the default `"%.4f"`), and `write` itself returns the instance's canonical
`csv_path`.  The hypotheses delimit the model's scope: at least one column,
nonduplicated comma-free nonempty names (the model writer does not quote
fields, and the model reader does not rename duplicate or empty headers),
and matching row/index lengths. -/
theorem write_read_round_trip (inst : CsvInst) (f : Frame) (prec : ℕ)
    (hp : 1 ≤ prec) (hw : wellFormed f = true) (_hnd : f.colNames.Nodup) :
    (csvWrite inst f prec).1 = inst.csv_path ∧
    csvRead (csvWrite inst f prec).2 none = some (roundFrame prec f) := by
  refine ⟨rfl, ?_⟩
  simp only [wellFormed, Bool.and_eq_true] at hw
  obtain ⟨⟨⟨⟨h1, h2⟩, h3⟩, h4⟩, h5⟩ := hw
  have hcols_ne : f.colNames ≠ [] := by simpa using h1
  have hcols : ∀ c ∈ f.colNames, ',' ∉ c := by
    intro c hc
    have := List.all_eq_true.mp h2 c hc
    simp only [Bool.and_eq_true, Bool.not_eq_true'] at this
    simpa using this.2
  have hlen : f.index.vals.length = f.rows.length := by simpa using h4
  have hrows : ∀ r ∈ f.rows, r.length = f.colNames.length := by
    intro r hr
    have := List.all_eq_true.mp h5 r hr
    simpa using this
  have hfield : ∃ idxF,
      (match f.index.name with | none => ([] : List Char) | some n => n) = idxF ∧
      ',' ∉ idxF ∧ (if idxF = [] then none else some idxF) = f.index.name := by
    cases hnm : f.index.name with
    | none => exact ⟨[], rfl, by simp, by simp [hnm]⟩
    | some nm =>
      rw [hnm] at h3
      simp only [Bool.and_eq_true, Bool.not_eq_true'] at h3
      have hnm_ne : nm ≠ [] := by simpa using h3.1
      have hnm_cl : ',' ∉ nm := by simpa using h3.2
      exact ⟨nm, rfl, hnm_cl, by simp [hnm_ne, hnm]⟩
  obtain ⟨idxF, hfe, hfclean, hfname⟩ := hfield
  have hcontent : (csvWrite inst f prec).2 =
      joinWith ',' (idxF :: f.colNames) :: writeRows prec f.index.vals f.rows := by
    unfold csvWrite csvWriteLines
    rw [hfe]
  rw [hcontent]
  have hsplit : splitOnChar ',' (joinWith ',' (idxF :: f.colNames))
      = idxF :: f.colNames := by
    apply splitOnChar_joinWith (List.cons_ne_nil _ _)
    intro x hx
    rcases List.mem_cons.mp hx with rfl | hx'
    · exact hfclean
    · exact hcols x hx'
  have hpreview : previewCols
      (joinWith ',' (idxF :: f.colNames) :: writeRows prec f.index.vals f.rows) ','
      = f.colNames.length := by
    simp [previewCols, hsplit]
  have hpos : 0 < f.colNames.length := List.length_pos.mpr hcols_ne
  have hdelim : csvDelim
      (joinWith ',' (idxF :: f.colNames) :: writeRows prec f.index.vals f.rows)
      = some ',' := by
    unfold csvDelim delimiters chooseDelim
    rw [hpreview, if_pos hpos]
  have hraw : csvReadRaw
      (joinWith ',' (idxF :: f.colNames) :: writeRows prec f.index.vals f.rows)
      = some (roundFrame prec f) := by
    unfold csvReadRaw
    rw [hdelim]
    show parseFile _ ',' = _
    rw [parseFile_cons hsplit,
      parseRows_write hp f.colNames.length f.index.vals f.rows hlen hrows]
    show some _ = _
    rw [List.map_fst_zip _ _ (by simp [hlen]), List.map_snd_zip _ _ (by simp [hlen])]
    rw [hfname]
    rfl
  unfold csvRead
  rw [hraw]

/-- A small concrete frame for the round-trip witness. -/
def sampleFrame : Frame :=
  ⟨⟨some ['t'], [3 / 2]⟩, [['a']], [[1 / 3]]⟩

/-- Witness for C9 at a one-column, one-row frame with the default
`"%.4f"` format. -/
theorem write_read_round_trip_witness :
    wellFormed sampleFrame = true ∧
    (csvWrite ⟨⟨[], "t.csv".toList⟩⟩ sampleFrame 4).1 = PyPath.mk [] "t.csv".toList ∧
    csvRead (csvWrite ⟨⟨[], "t.csv".toList⟩⟩ sampleFrame 4).2 none
      = some (roundFrame 4 sampleFrame) :=
  ⟨by decide,
   (write_read_round_trip ⟨⟨[], "t.csv".toList⟩⟩ sampleFrame 4 (by decide)
      (by decide) (by decide)).1,
   (write_read_round_trip ⟨⟨[], "t.csv".toList⟩⟩ sampleFrame 4 (by decide)
      (by decide) (by decide)).2⟩

/-! ## Model of `src/build/ExampleCnnMixedPipe.py`

The network itself (`keras`) and the encoder (`sklearn`) are external; the
embedding keeps what the claims depend on: the output-layer contract of the
built architecture, the binary/multiclass branching on the truthiness of
`is_binary`, the encoder's fitted categories, and the decoding of raw
network outputs (given as rows of rationals, one entry per output unit —
the external library's contract) back to labels. -/

/-- Python values relevant to `set_params`: `None`, booleans, strings, and
string-keyed dicts. -/
inductive PVal where
  | pyNone
  | bool (b : Bool)
  | str (s : List Char)
  | dict (entries : List (List Char × PVal))

/-- Python truthiness, as used by `if self.is_binary:` /
`if not self.is_binary:`. -/
def truthy : PVal → Bool
  | .pyNone => false
  | .bool b => b
  | .str s => !s.isEmpty
  | .dict es => !es.isEmpty

/-- Exception classes Python raises from `obj[key]`. -/
inductive PyErr where
  | keyError
  | typeError
deriving DecidableEq

/-- `KeyError` is a `LookupError`; `TypeError` is not. -/
def isLookupError : PyErr → Bool
  | .keyError => true
  | .typeError => false

/-- Whether a value is a dict (subscriptable by a string key). -/
def isDict : PVal → Bool
  | .dict _ => true
  | _ => false

/-- Dict lookup (kwargs keys are unique, so first match suffices). -/
def dictLookup : List (List Char × PVal) → List Char → Option PVal
  | [], _ => none
  | (k, v) :: rest, key => if k = key then some v else dictLookup rest key

/-- Python `obj[key]` with a string key: on a dict, `KeyError` when the key
is absent; on any non-dict value, `TypeError`. -/
def pySubscript (v : PVal) (key : List Char) : Except PyErr PVal :=
  match v with
  | .dict es =>
    match dictLookup es key with
    | some w => .ok w
    | none => .error .keyError
  | _ => .error .typeError

/-- `"Estimator"`. -/
def estKey : List Char := "Estimator".toList

/-- `"is_binary"`. -/
def binKey : List Char := "is_binary".toList

/-- Output layer activation. -/
inductive Activation where
  | sigmoid
  | softmax
deriving DecidableEq

/-- What `_Model.__build` constructs, as far as the output contract goes:
input shapes, output layer size and activation, and the compile loss. -/
structure NetArch where
  inputDim : ℕ × ℕ
  inputDim2d : ℕ
  outUnits : ℕ
  outAct : Activation
  loss : List Char
deriving DecidableEq

/-- The fixed label vocabulary `self.__labels` (a (4, 1) array). -/
def labelCats : List (List Char) :=
  ["Good".toList, "Acceptable".toList, "Marginal".toList, "Poor".toList]

/-- `_Model` state: `is_binary` (initially `None`; `set_params` stores an
arbitrary value, unvalidated), the lazily built network, and the one-hot
encoder's fitted categories (`none` until `fit` fits it). -/
structure MState where
  is_binary : PVal
  arch : Option NetArch
  encoderCats : Option (List (List Char))

/-- `_Model.__init__` (line 18-24): `is_binary = None`, no model built,
encoder not yet fitted. -/
def mInit : MState := ⟨PVal.pyNone, none, none⟩

/-- `_Model.__build` (lines 26-52): a single sigmoid output unit when
`self.is_binary` is truthy, else a `labels.shape[0] = 4`-way softmax;
the compile loss follows the same test. -/
def mBuild (m : MState) (dims : ℕ × ℕ) (d2 : ℕ) : MState :=
  { m with
    arch := some
      ⟨dims, d2,
       (if truthy m.is_binary then 1 else labelCats.length),
       (if truthy m.is_binary then Activation.sigmoid else Activation.softmax),
       (if truthy m.is_binary then "binary_crossentropy".toList
        else "categorical_crossentropy".toList)⟩ }

/-- `_Model.fit` (lines 54-63): rebuild the network from the input shapes,
then in the multiclass branch (`if not self.is_binary:`) fit the one-hot
encoder against the fixed vocabulary.  The target transform and the
training itself belong to the external libraries. -/
def mFit (m : MState) (dims : ℕ × ℕ) (d2 : ℕ) : MState :=
  let m' := mBuild m dims d2
  if !truthy m'.is_binary then { m' with encoderCats := some labelCats } else m'

/-- sklearn-level errors surfacing from `predict`. -/
inductive SkErr where
  | shapeError
  | notFitted
deriving DecidableEq

def argmaxAux : List ℚ → ℕ → ℕ → ℚ → ℕ
  | [], _, best, _ => best
  | x :: xs, i, best, bv =>
    if bv < x then argmaxAux xs (i + 1) i x else argmaxAux xs (i + 1) best bv

/-- `np.argmax`: index of the first maximal entry (`0` on an empty list). -/
def argmaxIdx : List ℚ → ℕ
  | [] => 0
  | x :: xs => argmaxAux xs 1 0 x

/-- `OneHotEncoder.inverse_transform` on one row: the row length must match
the category count; an all-zero row decodes to `None`, any other row to the
category at the argmax. -/
def inverseTransformRow (cats : List (List Char)) (row : List ℚ) :
    Except SkErr (Option (List Char)) :=
  if row.length ≠ cats.length then .error .shapeError
  else if row.all (· == 0) then .ok none
  else
    match cats.get? (argmaxIdx row) with
    | some c => .ok (some c)
    | none => .error .shapeError

/-- `inverse_transform` over all rows. -/
def inverseTransform (cats : List (List Char)) :
    List (List ℚ) → Except SkErr (List (Option (List Char)))
  | [] => .ok []
  | r :: rs =>
    match inverseTransformRow cats r, inverseTransform cats rs with
    | .ok o, .ok os => .ok (o :: os)
    | .error e, _ => .error e
    | .ok _, .error e => .error e

/-- A cell of the array `predict` returns: a probability (binary branch) or
a decoded label (multiclass branch; `none` models sklearn's `None`). -/
inductive Cell where
  | num (q : ℚ)
  | label (s : Option (List Char))
deriving DecidableEq

/-- `_Model.predict` (lines 65-75): the raw network output is returned
unchanged in the binary branch; the multiclass branch decodes it through
the fitted encoder, yielding one label per row. -/
def mPredict (m : MState) (raw : List (List ℚ)) :
    Except SkErr (List (List Cell)) :=
  if truthy m.is_binary then .ok (raw.map (fun r => r.map Cell.num))
  else
    match m.encoderCats with
    | none => .error .notFitted
    | some cats =>
      (inverseTransform cats raw).map (fun os => os.map (fun o => [Cell.label o]))

/-- The nested lookup `parameters["Estimator"]["is_binary"]`. -/
def pathLookup (ps : List (List Char × PVal)) : Except PyErr PVal :=
  match pySubscript (PVal.dict ps) estKey with
  | .error e => .error e
  | .ok est => pySubscript est binKey

/-- `ExampleCnnMixedPipe.set_params(**parameters)` (lines 102-104):
evaluate `parameters["Estimator"]["is_binary"]` and assign the result to
the estimator's `is_binary`.  When the evaluation raises, the exception
propagates and the state stays as it was (the assignment never runs). -/
def setParamsExec (m : MState) (ps : List (List Char × PVal)) :
    MState × Option PyErr :=
  match pySubscript (PVal.dict ps) estKey with
  | .error e => (m, some e)
  | .ok est =>
    match pySubscript est binKey with
    | .error e => (m, some e)
    | .ok v => ({ m with is_binary := v }, none)

/-! ## C6: `set_params` -/

lemma pySubscript_dict (es : List (List Char × PVal)) (key : List Char) :
    pySubscript (PVal.dict es) key =
      match dictLookup es key with
      | some w => Except.ok w
      | none => Except.error PyErr.keyError := rfl

/-- C6 counterexample: with `parameters = {"Estimator": True}` — a malformed
mapping, the nested value not being a dict — `set_params` raises a
`TypeError` ('bool' object is not subscriptable), which is NOT a lookup
error; `is_binary` stays unchanged. -/
theorem set_params_lookup_error_counterexample :
    (setParamsExec mInit [(estKey, PVal.bool true)]).2 = some PyErr.typeError ∧
    isLookupError PyErr.typeError = false ∧
    (setParamsExec mInit [(estKey, PVal.bool true)]).1 = mInit :=
  ⟨rfl, rfl, rfl⟩

/-- C6 (amended): `set_params` stores `parameters["Estimator"]["is_binary"]`
into `is_binary` whenever the nested path evaluates, with no validation of
the value; evaluation failures propagate with the state unchanged.  The
failure is a `KeyError` (a lookup error) exactly when a dict lacks the
requested key, and a `TypeError` (not a lookup error) exactly when the
`"Estimator"` value is not a dict. -/
theorem set_params_behavior :
    ∀ (m : MState) (ps : List (List Char × PVal)),
      (∀ v, pathLookup ps = Except.ok v →
        setParamsExec m ps = ({ m with is_binary := v }, none)) ∧
      (∀ e, pathLookup ps = Except.error e → setParamsExec m ps = (m, some e)) ∧
      ((setParamsExec m ps).2 = some PyErr.keyError ↔
        dictLookup ps estKey = none ∨
          ∃ d, dictLookup ps estKey = some (PVal.dict d) ∧
            dictLookup d binKey = none) ∧
      ((setParamsExec m ps).2 = some PyErr.typeError ↔
        ∃ v, dictLookup ps estKey = some v ∧ isDict v = false) := by
  intro m ps
  have hsub := pySubscript_dict ps estKey
  cases hl : dictLookup ps estKey with
  | none =>
    rw [hl] at hsub
    have hpath : pathLookup ps = Except.error PyErr.keyError := by
      unfold pathLookup; rw [hsub]
    have hexec : setParamsExec m ps = (m, some PyErr.keyError) := by
      unfold setParamsExec; rw [hsub]
    refine ⟨?_, ?_, ?_, ?_⟩
    · intro v hv; rw [hpath] at hv; exact absurd hv (by simp)
    · intro e he
      rw [hpath] at he
      injection he with h
      subst h
      exact hexec
    · rw [hexec]
      constructor
      · intro _; exact Or.inl rfl
      · intro _; rfl
    · rw [hexec]
      constructor
      · intro h; exact absurd h (by simp)
      · rintro ⟨v, hv, _⟩; exact absurd hv (by simp)
  | some v =>
    rw [hl] at hsub
    cases v with
    | dict d =>
      have hpath1 : pathLookup ps = pySubscript (PVal.dict d) binKey := by
        unfold pathLookup; rw [hsub]
      have hexec1 : setParamsExec m ps =
          (match pySubscript (PVal.dict d) binKey with
           | Except.error e => (m, some e)
           | Except.ok w => ({ m with is_binary := w }, none)) := by
        unfold setParamsExec; rw [hsub]
      have hsub2 := pySubscript_dict d binKey
      cases hl2 : dictLookup d binKey with
      | none =>
        rw [hl2] at hsub2
        rw [hsub2] at hpath1 hexec1
        have hexec2 : setParamsExec m ps = (m, some PyErr.keyError) := hexec1
        refine ⟨?_, ?_, ?_, ?_⟩
        · intro v hv; rw [hpath1] at hv; exact absurd hv (by simp)
        · intro e he
          rw [hpath1] at he
          injection he with h
          subst h
          exact hexec2
        · rw [hexec2]
          constructor
          · intro _; exact Or.inr ⟨d, rfl, hl2⟩
          · intro _; rfl
        · rw [hexec2]
          constructor
          · intro h; exact absurd h (by simp)
          · rintro ⟨v, hv, hd⟩
            injection hv with h'
            subst h'
            simp [isDict] at hd
      | some w =>
        rw [hl2] at hsub2
        rw [hsub2] at hpath1 hexec1
        have hexec2 : setParamsExec m ps = ({ m with is_binary := w }, none) :=
          hexec1
        refine ⟨?_, ?_, ?_, ?_⟩
        · intro v hv
          rw [hpath1] at hv
          injection hv with h
          subst h
          exact hexec2
        · intro e he; rw [hpath1] at he; exact absurd he (by simp)
        · rw [hexec2]
          constructor
          · intro h; exact absurd h (by simp)
          · rintro (h | ⟨d', hd', hl2'⟩)
            · exact absurd h (by simp)
            · injection hd' with h'
              injection h' with h''
              subst h''
              rw [hl2] at hl2'
              exact absurd hl2' (by simp)
        · rw [hexec2]
          constructor
          · intro h; exact absurd h (by simp)
          · rintro ⟨v, hv, hd⟩
            injection hv with h'
            subst h'
            simp [isDict] at hd
    | pyNone =>
      have hpath1 : pathLookup ps = Except.error PyErr.typeError := by
        unfold pathLookup; rw [hsub]; rfl
      have hexec2 : setParamsExec m ps = (m, some PyErr.typeError) := by
        unfold setParamsExec; rw [hsub]; rfl
      refine ⟨?_, ?_, ?_, ?_⟩
      · intro v hv; rw [hpath1] at hv; exact absurd hv (by simp)
      · intro e he
        rw [hpath1] at he
        injection he with h
        subst h
        exact hexec2
      · rw [hexec2]
        constructor
        · intro h; exact absurd h (by simp)
        · rintro (h | ⟨d', hd', _⟩)
          · exact absurd h (by simp)
          · injection hd' with h'
            exact PVal.noConfusion h'
      · rw [hexec2]
        constructor
        · intro _; exact ⟨PVal.pyNone, rfl, rfl⟩
        · intro _; rfl
    | bool b =>
      have hpath1 : pathLookup ps = Except.error PyErr.typeError := by
        unfold pathLookup; rw [hsub]; rfl
      have hexec2 : setParamsExec m ps = (m, some PyErr.typeError) := by
        unfold setParamsExec; rw [hsub]; rfl
      refine ⟨?_, ?_, ?_, ?_⟩
      · intro v hv; rw [hpath1] at hv; exact absurd hv (by simp)
      · intro e he
        rw [hpath1] at he
        injection he with h
        subst h
        exact hexec2
      · rw [hexec2]
        constructor
        · intro h; exact absurd h (by simp)
        · rintro (h | ⟨d', hd', _⟩)
          · exact absurd h (by simp)
          · injection hd' with h'
            exact PVal.noConfusion h'
      · rw [hexec2]
        constructor
        · intro _; exact ⟨PVal.bool b, rfl, rfl⟩
        · intro _; rfl
    | str s =>
      have hpath1 : pathLookup ps = Except.error PyErr.typeError := by
        unfold pathLookup; rw [hsub]; rfl
      have hexec2 : setParamsExec m ps = (m, some PyErr.typeError) := by
        unfold setParamsExec; rw [hsub]; rfl
      refine ⟨?_, ?_, ?_, ?_⟩
      · intro v hv; rw [hpath1] at hv; exact absurd hv (by simp)
      · intro e he
        rw [hpath1] at he
        injection he with h
        subst h
        exact hexec2
      · rw [hexec2]
        constructor
        · intro h; exact absurd h (by simp)
        · rintro (h | ⟨d', hd', _⟩)
          · exact absurd h (by simp)
          · injection hd' with h'
            exact PVal.noConfusion h'
      · rw [hexec2]
        constructor
        · intro _; exact ⟨PVal.str s, rfl, rfl⟩
        · intro _; rfl

/-- Witness for C6 (amended): a well-formed nested mapping sets
`is_binary` to the passed value. -/
theorem set_params_behavior_witness :
    setParamsExec mInit [(estKey, PVal.dict [(binKey, PVal.bool true)])]
      = ({ mInit with is_binary := PVal.bool true }, none) :=
  (set_params_behavior mInit
    [(estKey, PVal.dict [(binKey, PVal.bool true)])]).1 (PVal.bool true) rfl

/-! ## C7/C10: output shapes and label vocabulary -/

lemma argmaxAux_lt :
    ∀ (xs : List ℚ) (i best : ℕ) (bv : ℚ) {n : ℕ}, best < n →
      i + xs.length ≤ n → argmaxAux xs i best bv < n := by
  intro xs
  induction xs with
  | nil => intro i best bv n hb _; simpa [argmaxAux] using hb
  | cons x xs ih =>
    intro i best bv n hb hi
    simp only [List.length_cons] at hi
    simp only [argmaxAux]
    by_cases hx : bv < x
    · rw [if_pos hx]
      exact ih (i + 1) i x (by omega) (by omega)
    · rw [if_neg hx]
      exact ih (i + 1) best bv hb (by omega)

lemma argmaxIdx_lt {l : List ℚ} (h : l ≠ []) : argmaxIdx l < l.length := by
  cases l with
  | nil => exact absurd rfl h
  | cons x xs =>
    show argmaxAux xs 1 0 x < xs.length + 1
    exact argmaxAux_lt xs 1 0 x (by omega) (by omega)

/-- A row of the right length that is not all zero decodes to a category of
the encoder's vocabulary. -/
lemma inverseTransformRow_ok {cats : List (List Char)} {row : List ℚ}
    (hlen : row.length = cats.length) (hnz : row.all (· == 0) = false) :
    ∃ c ∈ cats, inverseTransformRow cats row = Except.ok (some c) := by
  have hne : row ≠ [] := by
    intro e
    subst e
    simp at hnz
  have hidx : argmaxIdx row < cats.length := hlen ▸ argmaxIdx_lt hne
  refine ⟨cats.get ⟨argmaxIdx row, hidx⟩, List.get_mem _ _ _, ?_⟩
  unfold inverseTransformRow
  rw [if_neg (fun hc => hc hlen), if_neg (by simp [hnz]), List.get?_eq_get hidx]

lemma not_all_zero_of_sum_one {row : List ℚ} (h : row.sum = 1) :
    row.all (· == 0) = false := by
  cases hb : row.all (· == 0) with
  | false => rfl
  | true =>
    have hz : ∀ x ∈ row, x = 0 := fun x hx =>
      eq_of_beq (List.all_eq_true.mp hb x hx)
    rw [List.sum_eq_zero hz] at h
    norm_num at h

lemma inverseTransform_cons (cats : List (List Char)) (r : List ℚ)
    (rs : List (List ℚ)) :
    inverseTransform cats (r :: rs) =
      match inverseTransformRow cats r, inverseTransform cats rs with
      | .ok o, .ok os => .ok (o :: os)
      | .error e, _ => .error e
      | .ok _, .error e => .error e := rfl

lemma inverseTransform_mem {cats : List (List Char)} :
    ∀ {raw : List (List ℚ)} {out}, inverseTransform cats raw = Except.ok out →
      ∀ o ∈ out, ∃ r ∈ raw, inverseTransformRow cats r = Except.ok o := by
  intro raw
  induction raw with
  | nil =>
    intro out h o ho
    simp only [inverseTransform] at h
    injection h with h'
    subst h'
    simp at ho
  | cons r rs ih =>
    intro out h o ho
    rw [inverseTransform_cons] at h
    cases h1 : inverseTransformRow cats r with
    | error e => rw [h1] at h; exact absurd h (by simp)
    | ok o1 =>
      cases h2 : inverseTransform cats rs with
      | error e => rw [h1, h2] at h; exact absurd h (by simp)
      | ok os =>
        rw [h1, h2] at h
        have hout : o1 :: os = out := by injection h
        subst hout
        rcases List.mem_cons.mp ho with rfl | ho'
        · exact ⟨r, List.mem_cons_self r rs, h1⟩
        · obtain ⟨r', hr', ho''⟩ := ih h2 o ho'
          exact ⟨r', List.mem_cons_of_mem r hr', ho''⟩

/-- C7: in binary mode the built output layer is a single sigmoid unit and
`predict` returns rows of exactly one entry (one probability per sample,
given the external contract that the network emits one entry per output
unit); in multiclass mode the output layer is a softmax sized to the fixed
4-label vocabulary and `predict` decodes each (distribution) row through
the fitted one-hot encoder, so every predicted value belongs to
{"Good", "Acceptable", "Marginal", "Poor"}. -/
theorem predict_output_shape_and_vocab :
    (∀ (m : MState) (dims : ℕ × ℕ) (d2 : ℕ), truthy m.is_binary = true →
      (mBuild m dims d2).arch =
        some ⟨dims, d2, 1, Activation.sigmoid, "binary_crossentropy".toList⟩) ∧
    (∀ (m : MState) (dims : ℕ × ℕ) (d2 : ℕ), truthy m.is_binary = false →
      (mBuild m dims d2).arch =
        some ⟨dims, d2, labelCats.length, Activation.softmax,
          "categorical_crossentropy".toList⟩ ∧ labelCats.length = 4) ∧
    (∀ (m : MState) (raw : List (List ℚ)) (out : List (List Cell)),
      truthy m.is_binary = true → (∀ r ∈ raw, r.length = 1) →
      mPredict m raw = Except.ok out → ∀ row ∈ out, row.length = 1) ∧
    (∀ (m : MState) (raw : List (List ℚ)) (out : List (List Cell)),
      truthy m.is_binary = false → m.encoderCats = some labelCats →
      (∀ r ∈ raw, r.length = labelCats.length ∧ r.sum = 1) →
      mPredict m raw = Except.ok out →
      ∀ row ∈ out, ∃ l ∈ labelCats, row = [Cell.label (some l)]) := by
  refine ⟨?_, ?_, ?_, ?_⟩
  · intro m dims d2 hb
    simp [mBuild, hb]
  · intro m dims d2 hb
    refine ⟨by simp [mBuild, hb], rfl⟩
  · intro m raw out hb hlen hpred row hrow
    unfold mPredict at hpred
    rw [hb] at hpred
    simp only [if_true] at hpred
    have hout : raw.map (fun r => r.map Cell.num) = out := by injection hpred
    subst hout
    obtain ⟨r, hr, rfl⟩ := List.mem_map.mp hrow
    rw [List.length_map]
    exact hlen r hr
  · intro m raw out hb hcats hrows hpred row hrow
    unfold mPredict at hpred
    rw [hb, hcats] at hpred
    simp only [Bool.false_eq_true, if_false] at hpred
    cases hinv : inverseTransform labelCats raw with
    | error e => rw [hinv] at hpred; exact absurd hpred (by simp [Except.map])
    | ok os =>
      rw [hinv] at hpred
      have hout : os.map (fun o => [Cell.label o]) = out := by
        rw [show (Except.ok os).map (fun os => os.map (fun o => [Cell.label o]))
            = Except.ok (os.map (fun o => [Cell.label o])) from rfl] at hpred
        injection hpred
      subst hout
      obtain ⟨o, ho, rfl⟩ := List.mem_map.mp hrow
      obtain ⟨r, hr, hro⟩ := inverseTransform_mem hinv o ho
      obtain ⟨hrl, hrs⟩ := hrows r hr
      obtain ⟨c, hc, hrc⟩ := inverseTransformRow_ok hrl (not_all_zero_of_sum_one hrs)
      rw [hro] at hrc
      have ho' : o = some c := by injection hrc
      subst ho'
      exact ⟨c, hc, rfl⟩

/-- Witness for C7: a binary state with a one-unit row, and a fitted
multiclass state decoding a one-hot row to "Good". -/
theorem predict_output_shape_and_vocab_witness :
    (mBuild ⟨PVal.bool true, none, none⟩ (2, 3) 5).arch =
      some ⟨(2, 3), 5, 1, Activation.sigmoid, "binary_crossentropy".toList⟩ ∧
    (∀ row ∈ [[Cell.num (1 / 2)]], row.length = 1) ∧
    (∀ row ∈ [[Cell.label (some "Good".toList)]],
      ∃ l ∈ labelCats, row = [Cell.label (some l)]) :=
  ⟨predict_output_shape_and_vocab.1 ⟨PVal.bool true, none, none⟩ (2, 3) 5 rfl,
   predict_output_shape_and_vocab.2.2.1 ⟨PVal.bool true, none, none⟩
     [[(1 : ℚ) / 2]] [[Cell.num (1 / 2)]] rfl (by decide) rfl,
   predict_output_shape_and_vocab.2.2.2 ⟨PVal.pyNone, none, some labelCats⟩
     [[1, 0, 0, 0]] [[Cell.label (some "Good".toList)]] rfl rfl
     (by
       intro r hr
       rw [List.mem_singleton] at hr
       subst hr
       exact ⟨rfl, by simp⟩)
     rfl⟩

/-- C10: with `set_params` never called, `is_binary` stays `None`; Python's
`if not self.is_binary:` treats `None` as falsy, so `fit` silently builds
the 4-way softmax architecture and fits the encoder, and `predict` silently
takes the encoder-decoding multiclass branch — no error is raised for the
missing mode flag. -/
theorem unset_is_binary_defaults_multiclass :
    mInit.is_binary = PVal.pyNone ∧
    truthy PVal.pyNone = false ∧
    (∀ (dims : ℕ × ℕ) (d2 : ℕ),
      (mFit mInit dims d2).arch =
        some ⟨dims, d2, labelCats.length, Activation.softmax,
          "categorical_crossentropy".toList⟩ ∧
      (mFit mInit dims d2).encoderCats = some labelCats) ∧
    (∀ (dims : ℕ × ℕ) (d2 : ℕ) (raw : List (List ℚ)),
      mPredict (mFit mInit dims d2) raw =
        (inverseTransform labelCats raw).map
          (fun os => os.map (fun o => [Cell.label o]))) := by
  refine ⟨rfl, rfl, ?_, ?_⟩
  · intro dims d2
    exact ⟨rfl, rfl⟩
  · intro dims d2 raw
    rfl
